import Mathlib

/-!
Verification of the chunked echo transfer harness (eutils.c).

The development shallowly embeds the core of eutils.c:

* addresses (struct sockaddr_in / struct sockaddr_xia) as the sum type
  SockAddr; the hierarchical rows are the s_row array entries, each row
  carrying its s_xid (principal type plus identifier bytes);
* count_rows and address_match, translated line by line from the C source;
  a C assert failure is modelled as the value Except.error ();
* the loss-tolerant receiver recv_write: the outcome of the 2-second
  select wait and the subsequently received datagram are supplied by an
  explicit environment event (DgramEvent);
* the reliable receiver read_write: the values returned by the successive
  blocking read calls are supplied as an explicit list, an empty element
  standing for a read that returned zero or a negative value;
* the two transfer engines datagram_process_file and stream_process_file,
  as recursion over the remaining bytes of the source file, faithful to
  the do/while-!feof loop of the C source (the end-of-file flag becomes
  true exactly when an fread returned fewer bytes than requested); the
  engines return the bytes written to the mirror file together with the
  list of the byte counts passed to the successive receive calls.
-/

namespace NetEcho

deriving instance DecidableEq for Except

/-- Address family tag of struct sockaddr_in (AF_INET). The exact numeric
value is irrelevant to the program logic; only distinctness matters. -/
def AF_INET : Nat := 2

/-- Address family tag of struct sockaddr_xia (AF_XIA). -/
def AF_XIA : Nat := 41

/-- The sentinel principal type XIDTYPE_NAT marking unused rows. -/
def XIDTYPE_NAT : Nat := 0

/-- Maximal number of rows in a hierarchical (XIA) address. -/
def XIA_NODES_MAX : Nat := 9

/-- One row identifier of a hierarchical address: the s_xid field of a row,
holding the principal type and the identifier bytes. -/
structure Xid where
  xid_type : Nat
  xid_id : List Nat
deriving DecidableEq

/-- The sentinel row content: a not-a-type row. -/
def natXid : Xid := ⟨XIDTYPE_NAT, []⟩

/-- A socket address: either a flat sockaddr_in, modelled by the raw bytes
of the structure, or a hierarchical sockaddr_xia, modelled by the list of
its rows (the s_row array of the embedded struct xia_addr). -/
inductive SockAddr where
  | inet (bytes : List Nat)
  | xia (rows : List Xid)
deriving DecidableEq

/-- The sa_family field of a socket address. -/
def sa_family : SockAddr → Nat
  | .inet _ => AF_INET
  | .xia _ => AF_XIA

/-- xia_is_nat: a principal type is the sentinel not-a-type. -/
def xia_is_nat (t : Nat) : Bool := t == XIDTYPE_NAT

/-- count_rows from eutils.c: scan the row array from index 0 up to
XIA_NODES_MAX and return the index of the first sentinel row (or
XIA_NODES_MAX when there is none). -/
def count_rows (rows : List Xid) : Nat :=
  ((rows.take XIA_NODES_MAX).takeWhile (fun r => ! xia_is_nat r.xid_type)).length

/-- The last effective row's identifier of a hierarchical address:
row number count_rows - 1. -/
def last_xid (rows : List Xid) : Xid :=
  rows.getD (count_rows rows - 1) natXid

/-- address_match from eutils.c. The initial
assert(addr->sa_family == expected->sa_family) and the assert(0) of the
default switch branch are the catch-all error case; for AF_INET the
function compares the lengths and memcmp-compares addr_len bytes of the
two structures; for AF_XIA it asserts that both addresses have at least
one effective row and memcmp-compares the s_xid of the last effective row
of each address. -/
def address_match (addr : SockAddr) (addr_len : Nat)
    (expected : SockAddr) (exp_len : Nat) : Except Unit Bool :=
  match addr, expected with
  | .inet ab, .inet eb =>
      .ok (decide (addr_len = exp_len ∧ ab.take addr_len = eb.take addr_len))
  | .xia ar, .xia er =>
      if 0 < count_rows ar ∧ 0 < count_rows er then
        .ok (decide (last_xid ar = last_xid er))
      else
        .error ()
  | _, _ => .error ()

/-- The environment's answer to one recv_write call: either the 2-second
select timeout elapsed with nothing readable, or a datagram arrived,
carrying the sender address (with the address length reported by
recvfrom) and the payload bytes. -/
inductive DgramEvent where
  | timeout
  | packet (src : SockAddr) (src_len : Nat) (payload : List Nat)

/-- The observable outcome of one receive primitive call: a fatal assert
failure terminating the process, a tolerated loss (the user-visible "."
marker, nothing written to the mirror file), or a normal return writing
the given bytes to the mirror file in one fwrite. -/
inductive RecvOut where
  | fatal
  | lost
  | wrote (bytes : List Nat)
deriving DecidableEq

/-- recv_write from eutils.c, the loss-tolerant receiver. On timeout it
prints the loss marker and returns without writing. Otherwise it performs
one recvfrom sized to n_sent (so the payload is truncated to n_sent
bytes), asserts that the sender address matches the expected source, and
fwrites exactly the received bytes. -/
def recv_write (ev : DgramEvent) (expected_src : SockAddr)
    (exp_src_len : Nat) (n_sent : Nat) : RecvOut :=
  match ev with
  | .timeout => .lost
  | .packet src src_len payload =>
      match address_match src src_len expected_src exp_src_len with
      | .error _ => .fatal
      | .ok false => .fatal
      | .ok true => .wrote (payload.take n_sent)

/-- The accumulation loop of read_write: while fewer than the expected
bytes have been obtained, consume the next read result (truncated to the
number of bytes still requested); a read returning no bytes (connection
closed or error) aborts with none. -/
def rwLoop : List (List Nat) → Nat → List Nat → Option (List Nat)
  | _, 0, acc => some acc
  | [], _ + 1, _ => none
  | r :: rs, n + 1, acc =>
      if (r.take (n + 1)).isEmpty then none
      else rwLoop rs (n + 1 - (r.take (n + 1)).length) (acc ++ r.take (n + 1))

/-- read_write from eutils.c, the reliable receiver: accumulate blocking
reads until exactly n_sent bytes are obtained, then write them to the
mirror file in one fwrite; any read returning zero or a negative count
before that prints the loss marker and returns without writing. -/
def read_write (reads : List (List Nat)) (n_sent : Nat) : RecvOut :=
  match rwLoop reads n_sent [] with
  | none => .lost
  | some acc => .wrote acc

/-- C2: with both hierarchical addresses having at least one effective
row, address_match returns exactly the equality of the last effective
rows' identifiers; in particular it returns true if and only if those
identifiers are equal, and rows before the last effective row, as well as
the passed address lengths, never affect the result. -/
theorem c2_suffix_only_match (ar er : List Xid) (la le : Nat)
    (ha : 0 < count_rows ar) (he : 0 < count_rows er) :
    address_match (.xia ar) la (.xia er) le
      = .ok (decide (last_xid ar = last_xid er))
    ∧ (address_match (.xia ar) la (.xia er) le = .ok true
        ↔ last_xid ar = last_xid er) := by
  have h : address_match (.xia ar) la (.xia er) le
      = .ok (decide (last_xid ar = last_xid er)) := by
    simp [address_match, ha, he]
  refine ⟨h, ?_⟩
  rw [h]
  constructor
  · intro hok
    have : decide (last_xid ar = last_xid er) = true := by
      injection hok
    exact of_decide_eq_true this
  · intro hEq
    simp [hEq]

/-- Witness for C2 at concrete addresses that differ only before the last
effective row. -/
theorem c2_suffix_only_match_witness :
    address_match (.xia [⟨1, [7]⟩, ⟨2, [9]⟩]) 3 (.xia [⟨5, [6]⟩, ⟨2, [9]⟩]) 4
      = .ok (decide (last_xid [⟨1, [7]⟩, ⟨2, [9]⟩]
          = last_xid [⟨5, [6]⟩, ⟨2, [9]⟩]))
    ∧ (address_match (.xia [⟨1, [7]⟩, ⟨2, [9]⟩]) 3
          (.xia [⟨5, [6]⟩, ⟨2, [9]⟩]) 4 = .ok true
        ↔ last_xid [⟨1, [7]⟩, ⟨2, [9]⟩] = last_xid [⟨5, [6]⟩, ⟨2, [9]⟩]) :=
  c2_suffix_only_match [⟨1, [7]⟩, ⟨2, [9]⟩] [⟨5, [6]⟩, ⟨2, [9]⟩] 3 4
    (by decide) (by decide)

/-- C6: comparing two addresses whose family tags differ is the failing
assert(addr->sa_family == expected->sa_family), a fatal error; a false
boolean is never returned for a mixed-family pair. -/
theorem c6_cross_family_fatal (a b : SockAddr) (la lb : Nat)
    (h : sa_family a ≠ sa_family b) :
    address_match a la b lb = .error () := by
  cases a <;> cases b <;> first
    | rfl
    | (exfalso; exact h rfl)

/-- Witness for C6: a flat and a hierarchical address. -/
theorem c6_cross_family_fatal_witness :
    address_match (.inet [1, 2]) 2 (.xia [⟨1, [7]⟩]) 4 = .error () :=
  c6_cross_family_fatal (.inet [1, 2]) (.xia [⟨1, [7]⟩]) 2 4 (by decide)

/-- C7: if either hierarchical address has zero effective rows (its first
row is already the sentinel), address_match is the failing
assert(addr_n > 0 && exp_n > 0), a fatal error rather than a boolean. -/
theorem c7_zero_rows_fatal (ar er : List Xid) (la le : Nat)
    (h : count_rows ar = 0 ∨ count_rows er = 0) :
    address_match (.xia ar) la (.xia er) le = .error () := by
  have hno : ¬ (0 < count_rows ar ∧ 0 < count_rows er) := by omega
  simp [address_match, hno]

/-- Witness for C7: an address whose row list starts with the sentinel. -/
theorem c7_zero_rows_fatal_witness :
    address_match (.xia [natXid]) 4 (.xia [⟨1, [7]⟩]) 4 = .error () :=
  c7_zero_rows_fatal [natXid] [⟨1, [7]⟩] 4 4 (by decide)

/-- C3: when a datagram arrives whose sender address does not match the
expected peer, recv_write is the failing assert(address_match(...)): the
process terminates fatally and no byte of the datagram reaches the
mirror file (the fwrite is never executed). -/
theorem c3_wrong_peer_fatal (src : SockAddr) (src_len : Nat)
    (payload : List Nat) (exp : SockAddr) (exp_len n : Nat)
    (h : address_match src src_len exp exp_len ≠ .ok true) :
    recv_write (.packet src src_len payload) exp exp_len n = .fatal := by
  cases hm : address_match src src_len exp exp_len with
  | error e => simp [recv_write, hm]
  | ok b =>
      cases b with
      | false => simp [recv_write, hm]
      | true => exact absurd hm h

/-- Witness for C3: a forged sender whose last effective row differs. -/
theorem c3_wrong_peer_fatal_witness :
    recv_write (.packet (.xia [⟨1, [7]⟩]) 4 [9, 9]) (.xia [⟨1, [8]⟩]) 4 2
      = .fatal :=
  c3_wrong_peer_fatal (.xia [⟨1, [7]⟩]) 4 [9, 9] (.xia [⟨1, [8]⟩]) 4 2
    (by decide)

/-- C10: the loss-tolerant receiver performs no length verification: a
datagram from the matching peer carrying fewer bytes than the expected
total is accepted without error, and exactly the received (shorter) byte
count is written to the mirror file. -/
theorem c10_short_datagram_accepted (src : SockAddr) (src_len : Nat)
    (payload : List Nat) (exp : SockAddr) (exp_len n : Nat)
    (hm : address_match src src_len exp exp_len = .ok true)
    (hlen : payload.length < n) :
    recv_write (.packet src src_len payload) exp exp_len n
      = .wrote payload := by
  simp [recv_write, hm, List.take_of_length_le (le_of_lt hlen)]

/-- Witness for C10: a 2-byte datagram where 5 bytes were expected. -/
theorem c10_short_datagram_accepted_witness :
    recv_write (.packet (.inet [1, 2]) 2 [3, 4]) (.inet [1, 2]) 2 5
      = .wrote [3, 4] :=
  c10_short_datagram_accepted (.inet [1, 2]) 2 [3, 4] (.inet [1, 2]) 2 5
    (by decide) (by decide)

/-- The transfer loop of datagram_process_file from eutils.c, as recursion
over the bytes of the source file not yet read. One recursion step is one
iteration of the do/while body: fread up to chunk bytes (min chunk
rem.length bytes are obtained); when bytes were read, send them (sendto is
fire and forget) and bump both checkpoint counters; when the chunk counter
reaches times, call recv_write with the checkpoint byte total, consuming
the next environment event, and reset both counters; the loop repeats
while the end-of-file flag is unset, i.e. exactly while the fread obtained
the full chunk; after the loop a nonzero chunk counter triggers the final
partial-batch recv_write. The result carries the bytes written to the
mirror file and the list of byte totals passed to the receive calls (the
optional pre-receive hook is invoked exactly once before each of those
calls); a failing assert is Except.error (). -/
def dgLoop (srv : SockAddr) (slen chunk times : Nat) :
    Nat → List Nat → List DgramEvent → Nat → Nat →
    Except Unit (List Nat × List Nat)
  | 0, _, _, _, _ => .error ()
  | fuel + 1, rem, evs, count, bytes_sent =>
      let br := min chunk rem.length
      let count' := if 0 < br then count + 1 else count
      let bytes' := if 0 < br then bytes_sent + br else bytes_sent
      if count' = times then
        match recv_write (evs.headD .timeout) srv slen bytes' with
        | .fatal => .error ()
        | .lost =>
            if 0 < chunk ∧ chunk ≤ rem.length then
              match dgLoop srv slen chunk times fuel (rem.drop chunk)
                  evs.tail 0 0 with
              | .error e => .error e
              | .ok q => .ok (q.1, bytes' :: q.2)
            else .ok ([], [bytes'])
        | .wrote w =>
            if 0 < chunk ∧ chunk ≤ rem.length then
              match dgLoop srv slen chunk times fuel (rem.drop chunk)
                  evs.tail 0 0 with
              | .error e => .error e
              | .ok q => .ok (w ++ q.1, bytes' :: q.2)
            else .ok (w, [bytes'])
      else
        if 0 < chunk ∧ chunk ≤ rem.length then
          dgLoop srv slen chunk times fuel (rem.drop chunk) evs count' bytes'
        else if count' = 0 then .ok ([], [])
        else
          match recv_write (evs.headD .timeout) srv slen bytes' with
          | .fatal => .error ()
          | .lost => .ok ([], [bytes'])
          | .wrote w => .ok (w, [bytes'])

/-- datagram_process_file from eutils.c: open the source and mirror files
and run the transfer loop with both counters at zero. The source file is
the list of its bytes; the environment events answer the successive
recv_write calls. The fuel argument of the loop only bounds the recursion
depth; one byte of fuel per loop iteration, so length + 1 is enough for
every positive chunk size (with chunk size zero the C loop never
terminates, which the model maps to running out of fuel). -/
def datagram_process_file (srv : SockAddr) (slen : Nat) (orig : List Nat)
    (chunk times : Nat) (evs : List DgramEvent) :
    Except Unit (List Nat × List Nat) :=
  dgLoop srv slen chunk times (orig.length + 1) orig evs 0 0

/-- The transfer loop of stream_process_file from eutils.c, structured
exactly like dgLoop, with two differences taken from the source: each
nonempty chunk is sent by a blocking write whose accepted byte count (the
next element of ws, the environment's write results) is asserted to equal
the chunk's byte count, and the receive primitive is read_write, consuming
the next element of rds (the read results for that checkpoint). -/
def stLoop (chunk times : Nat) :
    Nat → List Nat → List Int → List (List (List Nat)) → Nat → Nat →
    Except Unit (List Nat × List Nat)
  | 0, _, _, _, _, _ => .error ()
  | fuel + 1, rem, ws, rds, count, bytes_sent =>
      let br := min chunk rem.length
      if 0 < br ∧ ¬ ws.headD 0 = (br : Int) then .error ()
      else
        let ws' := if 0 < br then ws.tail else ws
        let count' := if 0 < br then count + 1 else count
        let bytes' := if 0 < br then bytes_sent + br else bytes_sent
        if count' = times then
          match read_write (rds.headD []) bytes' with
          | .fatal => .error ()
          | .lost =>
              if 0 < chunk ∧ chunk ≤ rem.length then
                match stLoop chunk times fuel (rem.drop chunk) ws'
                    rds.tail 0 0 with
                | .error e => .error e
                | .ok q => .ok (q.1, bytes' :: q.2)
              else .ok ([], [bytes'])
          | .wrote w =>
              if 0 < chunk ∧ chunk ≤ rem.length then
                match stLoop chunk times fuel (rem.drop chunk) ws'
                    rds.tail 0 0 with
                | .error e => .error e
                | .ok q => .ok (w ++ q.1, bytes' :: q.2)
              else .ok (w, [bytes'])
        else
          if 0 < chunk ∧ chunk ≤ rem.length then
            stLoop chunk times fuel (rem.drop chunk) ws' rds count' bytes'
          else if count' = 0 then .ok ([], [])
          else
            match read_write (rds.headD []) bytes' with
            | .fatal => .error ()
            | .lost => .ok ([], [bytes'])
            | .wrote w => .ok (w, [bytes'])

/-- stream_process_file from eutils.c: run the stream transfer loop with
both counters at zero, with one byte of fuel per loop iteration as in
datagram_process_file. -/
def stream_process_file (orig : List Nat) (chunk times : Nat)
    (ws : List Int) (rds : List (List (List Nat))) :
    Except Unit (List Nat × List Nat) :=
  stLoop chunk times (orig.length + 1) orig ws rds 0 0

/-- Split a list into consecutive pieces of sz elements, the last piece
possibly shorter. Piece k holds the bytes of checkpoint batch k when sz
is chunk size times checkpoint interval. -/
def blocks (sz : Nat) (l : List Nat) : List (List Nat) :=
  if h : 0 < sz ∧ l ≠ [] then l.take sz :: blocks sz (l.drop sz) else []
termination_by l.length
decreasing_by
  simp [List.length_drop]
  rcases h with ⟨h1, h2⟩
  have : 0 < l.length := List.length_pos.mpr h2
  omega

/-- The environment of a lossless datagram run: at every checkpoint the
expected peer's echo of the full batch arrives. -/
def echoEvs (srv : SockAddr) (slen : Nat) (bs : List (List Nat)) :
    List DgramEvent :=
  bs.map (fun b => .packet srv slen b)

/-- The write results of a lossless stream run: every blocking write
accepts its full chunk. -/
def echoWrites (chunk : Nat) (l : List Nat) : List Int :=
  (blocks chunk l).map (fun c => (c.length : Int))

/-- The read results of a lossless stream run: at every checkpoint a
single read delivers the full echoed batch. -/
def echoReads (times chunk : Nat) (l : List Nat) :
    List (List (List Nat)) :=
  (blocks (times * chunk) l).map (fun b => [b])

lemma blocks_nil (sz : Nat) : blocks sz [] = [] := by
  unfold blocks
  simp

lemma blocks_cons (sz : Nat) (l : List Nat) (h1 : 0 < sz) (h2 : l ≠ []) :
    blocks sz l = l.take sz :: blocks sz (l.drop sz) := by
  conv_lhs => rw [blocks]
  rw [dif_pos ⟨h1, h2⟩]

/-- C4: a 2-second timeout with nothing readable is tolerated datagram
loss. First conjunct: recv_write on a timeout event returns normally with
the loss marker (RecvOut.lost) and writes nothing to the mirror file.
Second conjunct: in the transfer loop, a checkpoint whose receive times
out records the receive call, appends nothing to the mirror bytes, and
the loop continues on the remaining file with both checkpoint counters
(chunk count and byte total) reset to zero. -/
theorem c4_timeout_tolerated :
    (∀ (exp : SockAddr) (exp_len n : Nat),
      recv_write .timeout exp exp_len n = .lost)
    ∧ (∀ (srv : SockAddr) (slen chunk times fuel : Nat) (rem : List Nat)
         (evs : List DgramEvent) (count b : Nat),
        0 < chunk → chunk ≤ rem.length → count + 1 = times →
        dgLoop srv slen chunk times (fuel + 1) rem (.timeout :: evs) count b
          = (dgLoop srv slen chunk times fuel (rem.drop chunk) evs 0 0).map
              (fun q => (q.1, (b + chunk) :: q.2))) := by
  constructor
  · intro exp exp_len n
    rfl
  · intro srv slen chunk times fuel rem evs count b hc hge hck
    have hbr : min chunk rem.length = chunk := Nat.min_eq_left hge
    conv_lhs => rw [dgLoop]
    simp only [hbr, hc, if_true, hck, List.headD_cons, List.tail_cons,
      recv_write]
    rw [if_pos ⟨trivial, hge⟩]
    cases hres : dgLoop srv slen chunk times fuel (rem.drop chunk) evs 0 0 with
    | error e => simp [hres, Except.map]
    | ok q => simp [hres, Except.map]

/-- Witness for C4: a one-chunk checkpoint on a one-byte file whose echo
times out. -/
theorem c4_timeout_tolerated_witness :
    recv_write .timeout (.inet [1]) 1 3 = .lost
    ∧ dgLoop (.inet [1]) 1 1 1 2 [5] [.timeout] 0 0
        = (dgLoop (.inet [1]) 1 1 1 1 ([5].drop 1) [] 0 0).map
            (fun q => (q.1, (0 + 1) :: q.2)) :=
  ⟨c4_timeout_tolerated.1 (.inet [1]) 1 3,
   c4_timeout_tolerated.2 (.inet [1]) 1 1 1 1 [5] [] 0 0 (by decide)
     (by decide) rfl⟩

lemma rwLoop_wrote_eq :
    ∀ (reads : List (List Nat)) (need : Nat) (acc m : List Nat),
      rwLoop reads need acc = some m →
      m = acc ++ reads.flatten.take need ∧ m.length = acc.length + need := by
  intro reads
  induction reads with
  | nil =>
      intro need acc m h
      cases need with
      | zero =>
          simp only [rwLoop, Option.some.injEq] at h
          subst h
          simp
      | succ k => simp [rwLoop] at h
  | cons r rs ih =>
      intro need acc m h
      cases need with
      | zero =>
          simp only [rwLoop, Option.some.injEq] at h
          subst h
          simp
      | succ k =>
          by_cases he : (r.take (k + 1)).isEmpty
          · simp [rwLoop, he] at h
          · simp only [rwLoop, he, Bool.false_eq_true, if_false] at h
            obtain ⟨h1, h2⟩ := ih _ _ _ h
            have hlt : (r.take (k + 1)).length = min (k + 1) r.length :=
              List.length_take _ _
            rcases Nat.le_total r.length (k + 1) with hle | hle
            · have hr : r.take (k + 1) = r := List.take_of_length_le hle
              rw [hr] at h1 h2
              constructor
              · rw [h1, List.flatten_cons, List.take_append_eq_append_take,
                  List.take_of_length_le hle, List.append_assoc]
              · rw [h2]
                simp only [List.length_append]
                omega
            · have htk : (r.take (k + 1)).length = k + 1 := by omega
              constructor
              · rw [h1, htk, Nat.sub_self, List.take_zero, List.append_nil,
                  List.flatten_cons, List.take_append_of_le_length hle]
              · rw [h2, htk]
                simp only [List.length_append]
                omega

lemma rwLoop_early_close :
    ∀ (good rest : List (List Nat)) (n : Nat) (acc : List Nat),
      good.flatten.length < n → rwLoop (good ++ [] :: rest) n acc = none := by
  intro good
  induction good with
  | nil =>
      intro rest n acc h
      cases n with
      | zero => simp at h
      | succ k => simp [rwLoop]
  | cons r rs ih =>
      intro rest n acc h
      cases n with
      | zero => simp at h
      | succ k =>
          simp only [List.cons_append, rwLoop]
          by_cases he : (r.take (k + 1)).isEmpty
          · simp [he]
          · simp only [he, Bool.false_eq_true, if_false]
            apply ih
            have h1 : (r.take (k + 1)).length = min (k + 1) r.length :=
              List.length_take _ _
            have h2 : (r :: rs).flatten.length = r.length + rs.flatten.length := by
              simp
            omega

/-- C8: the reliable receiver. First conjunct: whenever read_write
returns normally having written bytes m, the accumulation stopped at
exactly the expected byte count: m is the first n_sent bytes delivered by
the reads and m.length = n_sent, written by the single final fwrite.
Second conjunct: if some read returns zero or a negative count (an empty
read result) before the target is reached, read_write returns the loss
marker and nothing is written to the mirror file. -/
theorem c8_reliable_receiver :
    (∀ (reads : List (List Nat)) (n : Nat) (m : List Nat),
      read_write reads n = .wrote m →
      m = reads.flatten.take n ∧ m.length = n)
    ∧ (∀ (good rest : List (List Nat)) (n : Nat),
      good.flatten.length < n → read_write (good ++ [] :: rest) n = .lost) := by
  constructor
  · intro reads n m h
    unfold read_write at h
    cases hr : rwLoop reads n [] with
    | none => rw [hr] at h; cases h
    | some acc =>
        rw [hr] at h
        have hacc : acc = m := by
          injection h
        subst hacc
        obtain ⟨h1, h2⟩ := rwLoop_wrote_eq reads n [] acc hr
        rw [List.nil_append] at h1
        rw [List.length_nil, Nat.zero_add] at h2
        exact ⟨h1, h2⟩
  · intro good rest n h
    unfold read_write
    rw [rwLoop_early_close good rest n [] h]

/-- Witness for C8: two reads delivering 3 bytes exactly, and an early
close after 1 of 3 bytes. -/
theorem c8_reliable_receiver_witness :
    (([1, 2, 3] : List Nat) = ([[1, 2], [3]] : List (List Nat)).flatten.take 3
      ∧ ([1, 2, 3] : List Nat).length = 3)
    ∧ read_write ([[1]] ++ [] :: []) 3 = .lost :=
  ⟨c8_reliable_receiver.1 [[1, 2], [3]] 3 [1, 2, 3] (by decide),
   c8_reliable_receiver.2 [[1]] [] 3 (by decide)⟩

lemma stWrites_step (chunk : Nat) (rem : List Nat) (w : Int) (ws2 : List Int)
    (hc : 0 < chunk) (hrem : rem ≠ [])
    (hw : w = ((min chunk rem.length : Nat) : Int))
    (ht : ws2.take (blocks chunk (rem.drop chunk)).length
            = (blocks chunk (rem.drop chunk)).map (fun c => (c.length : Int))
          ∧ (blocks chunk (rem.drop chunk)).length ≤ ws2.length) :
    (w :: ws2).take (blocks chunk rem).length
        = (blocks chunk rem).map (fun c => (c.length : Int))
      ∧ (blocks chunk rem).length ≤ (w :: ws2).length := by
  obtain ⟨t1, t2⟩ := ht
  subst hw
  rw [blocks_cons chunk rem hc hrem]
  constructor
  · simp only [List.length_cons, List.take_succ_cons, List.map_cons,
      List.length_take, t1]
  · simp only [List.length_cons]
    omega

lemma stWrites_last (chunk : Nat) (rem : List Nat) (w : Int) (ws2 : List Int)
    (hc : 0 < chunk) (hrem : rem ≠ []) (hge : ¬ chunk ≤ rem.length)
    (hw : w = ((min chunk rem.length : Nat) : Int)) :
    (w :: ws2).take (blocks chunk rem).length
        = (blocks chunk rem).map (fun c => (c.length : Int))
      ∧ (blocks chunk rem).length ≤ (w :: ws2).length := by
  apply stWrites_step chunk rem w ws2 hc hrem hw
  rw [List.drop_eq_nil_of_le (le_of_not_le hge), blocks_nil]
  simp

lemma stLoop_ok_writes (chunk times : Nat) (hc : 0 < chunk) :
    ∀ (fuel : Nat) (rem : List Nat) (ws : List Int)
      (rds : List (List (List Nat))) (count b : Nat)
      (x : List Nat × List Nat),
      stLoop chunk times fuel rem ws rds count b = .ok x →
      ws.take (blocks chunk rem).length
          = (blocks chunk rem).map (fun c => (c.length : Int))
        ∧ (blocks chunk rem).length ≤ ws.length := by
  intro fuel
  induction fuel with
  | zero =>
      intro rem ws rds count b x hok
      simp [stLoop] at hok
  | succ fuel ih =>
      intro rem ws rds count b x hok
      by_cases hrem : rem = []
      · subst hrem
        simp [blocks_nil]
      · have hbr : 0 < min chunk rem.length :=
          lt_min hc (List.length_pos.mpr hrem)
        simp only [stLoop] at hok
        by_cases hw : ws.headD 0 = ((min chunk rem.length : Nat) : Int)
        case neg =>
          rw [if_pos ⟨hbr, hw⟩] at hok
          exact Except.noConfusion hok
        case pos =>
          rw [if_neg (fun hcon => hcon.2 hw)] at hok
          simp only [hbr, if_true] at hok
          obtain ⟨w, ws2, rfl⟩ : ∃ w ws2, ws = w :: ws2 := by
            cases ws with
            | nil =>
                exfalso
                simp only [List.headD_nil] at hw
                omega
            | cons a l => exact ⟨a, l, rfl⟩
          simp only [List.headD_cons] at hw
          simp only [List.tail_cons] at hok
          by_cases hge : chunk ≤ rem.length
          case neg =>
            exact stWrites_last chunk rem w ws2 hc hrem hge hw
          case pos =>
            apply stWrites_step chunk rem w ws2 hc hrem hw
            have hcond : 0 < chunk ∧ chunk ≤ rem.length := ⟨hc, hge⟩
            by_cases hck : count + 1 = times
            · rw [if_pos hck] at hok
              split at hok
              · exact Except.noConfusion hok
              · rw [if_pos hcond] at hok
                split at hok
                · exact Except.noConfusion hok
                · rename_i q hres
                  exact ih _ _ _ _ _ _ hres
              · rw [if_pos hcond] at hok
                split at hok
                · exact Except.noConfusion hok
                · rename_i q hres
                  exact ih _ _ _ _ _ _ hres
            · rw [if_neg hck, if_pos hcond] at hok
              exact ih _ _ _ _ _ _ hok

/-- C9: partial connection-oriented writes are fatal. First conjunct: a
run of the stream engine that returns normally consumed one write result
per chunk, and every one of them accepted exactly that chunk's byte
count; a run never continues past a partial send. Second conjunct,
directly: if the very first write accepts anything other than the full
first chunk, the engine is the failing
assert(write(s, buf, bytes_read) == bytes_read) and the process
terminates. -/
theorem c9_full_write_asserted :
    (∀ (file : List Nat) (chunk times : Nat) (ws : List Int)
       (rds : List (List (List Nat))) (x : List Nat × List Nat),
      0 < chunk →
      stream_process_file file chunk times ws rds = .ok x →
      ws.take (blocks chunk file).length
          = (blocks chunk file).map (fun c => (c.length : Int))
        ∧ (blocks chunk file).length ≤ ws.length)
    ∧ (∀ (file : List Nat) (chunk times : Nat) (w : Int) (ws : List Int)
         (rds : List (List (List Nat))),
      0 < chunk → file ≠ [] → ¬ w = ((min chunk file.length : Nat) : Int) →
      stream_process_file file chunk times (w :: ws) rds = .error ()) := by
  constructor
  · intro file chunk times ws rds x hc hok
    exact stLoop_ok_writes chunk times hc (file.length + 1) file ws rds 0 0
      x hok
  · intro file chunk times w ws rds hc hne hw
    have hbr : 0 < min chunk file.length :=
      lt_min hc (List.length_pos.mpr hne)
    unfold stream_process_file
    simp only [stLoop, List.headD_cons]
    rw [if_pos ⟨hbr, hw⟩]

/-- Witness for C9: a completed 3-byte run over 2-byte chunks whose two
writes accepted 2 and 1 bytes, and a first write accepting 1 of 2 bytes
being fatal. -/
theorem c9_full_write_asserted_witness :
    (([2, 1] : List Int).take (blocks 2 [1, 2, 3]).length
        = (blocks 2 [1, 2, 3]).map (fun c => (c.length : Int))
      ∧ (blocks 2 [1, 2, 3]).length ≤ ([2, 1] : List Int).length)
    ∧ stream_process_file [1, 2, 3] 2 1 ((1 : Int) :: []) [] = .error () :=
  ⟨c9_full_write_asserted.1 [1, 2, 3] 2 1 [2, 1] [[[1, 2]], [[3]]]
      ([1, 2, 3], [2, 1]) (by decide) (by decide),
   c9_full_write_asserted.2 [1, 2, 3] 2 1 1 [] [] (by decide) (by decide)
      (by decide)⟩

/-- The remaining echo events seen from an intermediate loop state: pb is
the bytes already sent in the current batch (count full chunks) and rem
the bytes not yet read; the next receive is answered with the echo of the
full current batch, the later receives with the echoes of the remaining
full-size batches. -/
def batch_evs (srv : SockAddr) (slen chunk times count : Nat)
    (pb rem : List Nat) : List DgramEvent :=
  if count = 0 ∧ rem = [] then []
  else
    .packet srv slen (pb ++ rem.take ((times - count) * chunk))
      :: echoEvs srv slen
           (blocks (times * chunk) (rem.drop ((times - count) * chunk)))

/-- The byte totals of the receive calls still to come, seen from the
same intermediate loop state as batch_evs. -/
def batch_sizes (chunk times count : Nat) (pb rem : List Nat) : List Nat :=
  if count = 0 ∧ rem = [] then []
  else
    (pb.length + min ((times - count) * chunk) rem.length)
      :: (blocks (times * chunk)
            (rem.drop ((times - count) * chunk))).map List.length

/-- The remaining echo read results of a stream run, seen from the same
intermediate loop state as batch_evs: each checkpoint is answered by a
single read delivering the full echoed batch. -/
def batch_rds (chunk times count : Nat) (pb rem : List Nat) :
    List (List (List Nat)) :=
  if count = 0 ∧ rem = [] then []
  else
    [pb ++ rem.take ((times - count) * chunk)]
      :: echoReads times chunk (rem.drop ((times - count) * chunk))

lemma batch_evs_zero (srv : SockAddr) (slen chunk times : Nat)
    (hc : 0 < chunk) (ht : 0 < times) (l : List Nat) :
    batch_evs srv slen chunk times 0 [] l
      = echoEvs srv slen (blocks (times * chunk) l) := by
  by_cases hl : l = []
  · subst hl
    simp [batch_evs, blocks_nil, echoEvs]
  · have hB : 0 < times * chunk := Nat.mul_pos ht hc
    rw [echoEvs, blocks_cons _ _ hB hl]
    simp [batch_evs, hl, echoEvs]

lemma batch_sizes_zero (chunk times : Nat) (hc : 0 < chunk) (ht : 0 < times)
    (l : List Nat) :
    batch_sizes chunk times 0 [] l
      = (blocks (times * chunk) l).map List.length := by
  by_cases hl : l = []
  · subst hl
    simp [batch_sizes, blocks_nil]
  · have hB : 0 < times * chunk := Nat.mul_pos ht hc
    rw [blocks_cons _ _ hB hl]
    simp [batch_sizes, hl, List.length_take]

lemma batch_rds_zero (chunk times : Nat) (hc : 0 < chunk) (ht : 0 < times)
    (l : List Nat) :
    batch_rds chunk times 0 [] l = echoReads times chunk l := by
  by_cases hl : l = []
  · subst hl
    simp [batch_rds, blocks_nil, echoReads]
  · have hB : 0 < times * chunk := Nat.mul_pos ht hc
    conv_rhs => rw [echoReads, blocks_cons _ _ hB hl]
    simp [batch_rds, hl, echoReads]

lemma take_mul_succ (chunk k : Nat) (rem : List Nat) :
    rem.take ((k + 1) * chunk)
      = rem.take chunk ++ (rem.drop chunk).take (k * chunk) := by
  rw [Nat.succ_mul, Nat.add_comm, List.take_add]

lemma drop_mul_succ (chunk k : Nat) (rem : List Nat) :
    rem.drop ((k + 1) * chunk) = (rem.drop chunk).drop (k * chunk) := by
  rw [Nat.succ_mul, List.drop_drop]
  congr 1
  omega

lemma batch_evs_shift (srv : SockAddr) (slen chunk times count : Nat)
    (pb rem : List Nat) (hc : 0 < chunk) (hge : chunk ≤ rem.length)
    (h2 : count + 1 < times) :
    batch_evs srv slen chunk times count pb rem
      = batch_evs srv slen chunk times (count + 1) (pb ++ rem.take chunk)
          (rem.drop chunk) := by
  have hrem : rem ≠ [] := by
    intro h
    subst h
    simp at hge
    omega
  have hk : times - count = (times - (count + 1)) + 1 := by omega
  unfold batch_evs
  rw [if_neg (fun h => hrem h.2), if_neg (fun h => Nat.succ_ne_zero count h.1),
    hk, take_mul_succ, drop_mul_succ, List.append_assoc]

lemma batch_sizes_shift (chunk times count : Nat) (pb rem : List Nat)
    (hc : 0 < chunk) (hge : chunk ≤ rem.length) (h2 : count + 1 < times) :
    batch_sizes chunk times count pb rem
      = batch_sizes chunk times (count + 1) (pb ++ rem.take chunk)
          (rem.drop chunk) := by
  have hrem : rem ≠ [] := by
    intro h
    subst h
    simp at hge
    omega
  have hk : times - count = (times - (count + 1)) + 1 := by omega
  unfold batch_sizes
  rw [if_neg (fun h => hrem h.2), if_neg (fun h => Nat.succ_ne_zero count h.1),
    hk, drop_mul_succ]
  have hmul : (times - (count + 1) + 1) * chunk
      = (times - (count + 1)) * chunk + chunk := Nat.succ_mul _ _
  have hlen : (pb ++ rem.take chunk).length = pb.length + min chunk rem.length := by
    simp [List.length_take]
  rw [hlen, List.length_drop]
  have hmin : min chunk rem.length = chunk := Nat.min_eq_left hge
  rw [hmin]
  congr 1
  omega

lemma batch_rds_shift (chunk times count : Nat) (pb rem : List Nat)
    (hc : 0 < chunk) (hge : chunk ≤ rem.length) (h2 : count + 1 < times) :
    batch_rds chunk times count pb rem
      = batch_rds chunk times (count + 1) (pb ++ rem.take chunk)
          (rem.drop chunk) := by
  have hrem : rem ≠ [] := by
    intro h
    subst h
    simp at hge
    omega
  have hk : times - count = (times - (count + 1)) + 1 := by omega
  unfold batch_rds
  rw [if_neg (fun h => hrem h.2), if_neg (fun h => Nat.succ_ne_zero count h.1),
    hk, take_mul_succ, drop_mul_succ, List.append_assoc]

lemma recv_write_echo (srv : SockAddr) (slen : Nat)
    (hm : address_match srv slen srv slen = .ok true)
    (payload : List Nat) (n : Nat) :
    recv_write (.packet srv slen payload) srv slen n
      = .wrote (payload.take n) := by
  simp [recv_write, hm]

lemma dgLoop_echo_nil (srv : SockAddr) (slen chunk times : Nat)
    (hc : 0 < chunk) (ht : 0 < times)
    (hm : address_match srv slen srv slen = .ok true)
    (fuel count : Nat) (pb : List Nat)
    (hcnt : count < times) (hpb : pb.length = count * chunk) :
    dgLoop srv slen chunk times (fuel + 1) []
        (batch_evs srv slen chunk times count pb []) count pb.length
      = .ok (pb ++ [], batch_sizes chunk times count pb []) := by
  by_cases h0 : count = 0
  · subst h0
    have hpb0 : pb = [] := by
      rw [Nat.zero_mul] at hpb
      exact List.length_eq_zero.mp hpb
    subst hpb0
    have h0t : ¬ ((0 : Nat) = times) := fun h => absurd h.symm (Nat.pos_iff_ne_zero.mp ht)
    simp [dgLoop, batch_evs, batch_sizes, h0t, hc.ne', Nat.le_zero]
  · have hne : ¬ (count = 0 ∧ ([] : List Nat) = []) := fun h => h0 h.1
    have hcknot : ¬ (count = times) := Nat.ne_of_lt hcnt
    have hcond : ¬ (0 < chunk ∧ chunk ≤ 0) := by
      omega
    rw [batch_evs, if_neg hne]
    conv_lhs => rw [dgLoop]
    simp only [List.length_nil, Nat.min_zero, lt_self_iff_false, if_false,
      List.headD_cons, List.tail_cons, List.take_nil, List.append_nil,
      recv_write_echo srv slen hm]
    rw [if_neg hcknot, if_neg hcond, if_neg h0, List.take_length]
    rw [batch_sizes, if_neg hne]
    simp [blocks_nil]

lemma dgLoop_echo (srv : SockAddr) (slen chunk times : Nat)
    (hc : 0 < chunk) (ht : 0 < times)
    (hm : address_match srv slen srv slen = .ok true) :
    ∀ (fuel : Nat) (rem : List Nat) (count : Nat) (pb : List Nat),
      rem.length < fuel → count < times → pb.length = count * chunk →
      dgLoop srv slen chunk times fuel rem
          (batch_evs srv slen chunk times count pb rem) count pb.length
        = .ok (pb ++ rem, batch_sizes chunk times count pb rem) := by
  intro fuel
  induction fuel with
  | zero =>
      intro rem count pb hn
      exact absurd hn (Nat.not_lt_zero _)
  | succ fuel ih =>
      intro rem count pb hn hcnt hpb
      by_cases hrem : rem = []
      · subst hrem
        exact dgLoop_echo_nil srv slen chunk times hc ht hm fuel count pb
          hcnt hpb
      · have hlen : 0 < rem.length := List.length_pos.mpr hrem
        by_cases hge : chunk ≤ rem.length
        · have hbr : min chunk rem.length = chunk := Nat.min_eq_left hge
          by_cases hck : count + 1 = times
          · -- checkpoint reached with a full chunk; the loop continues
            have ht1 : times - count = 1 := by omega
            have hfuel : (rem.drop chunk).length < fuel := by
              rw [List.length_drop]
              omega
            have hrec := ih (rem.drop chunk) 0 [] hfuel ht (by simp)
            rw [batch_evs_zero srv slen chunk times hc ht,
              batch_sizes_zero chunk times hc ht] at hrec
            simp only [List.length_nil, List.nil_append] at hrec
            rw [batch_evs, if_neg (fun h => hrem h.2), ht1, one_mul]
            conv_lhs => rw [dgLoop]
            simp only [hbr, hc, if_true, hck, eq_self_iff_true,
              List.headD_cons, List.tail_cons,
              recv_write_echo srv slen hm]
            rw [if_pos ⟨trivial, hge⟩]
            have hpay : (pb ++ rem.take chunk).take (pb.length + chunk)
                = pb ++ rem.take chunk := by
              apply List.take_of_length_le
              rw [List.length_append, List.length_take, hbr]
            rw [hpay]
            simp only [hrec]
            rw [batch_sizes, if_neg (fun h => hrem h.2), ht1, one_mul, hbr]
            rw [List.append_assoc, List.take_append_drop]
          · -- a full chunk strictly inside the current batch
            have h2 : count + 1 < times := by omega
            have hfuel : (rem.drop chunk).length < fuel := by
              rw [List.length_drop]
              omega
            have hpb' : (pb ++ rem.take chunk).length = (count + 1) * chunk := by
              rw [List.length_append, List.length_take, hbr, hpb, Nat.succ_mul]
            have hrec := ih (rem.drop chunk) (count + 1) (pb ++ rem.take chunk)
              hfuel h2 hpb'
            conv_lhs => rw [dgLoop]
            simp only [hbr, hc, if_true]
            rw [if_neg hck, if_pos ⟨trivial, hge⟩]
            rw [batch_evs_shift srv slen chunk times count pb rem hc hge h2]
            have hbytes : pb.length + chunk = (pb ++ rem.take chunk).length := by
              rw [List.length_append, List.length_take, hbr]
            rw [hbytes, hrec]
            rw [batch_sizes_shift chunk times count pb rem hc hge h2]
            rw [List.append_assoc, List.take_append_drop]
        · -- the final, shorter-than-chunk read
          have hlt : rem.length < chunk := Nat.lt_of_not_le hge
          have hbr : min chunk rem.length = rem.length :=
            Nat.min_eq_right (Nat.le_of_lt hlt)
          have htk : rem.take chunk = rem :=
            List.take_of_length_le (Nat.le_of_lt hlt)
          have hdr : rem.drop chunk = [] :=
            List.drop_eq_nil_of_le (Nat.le_of_lt hlt)
          by_cases hck : count + 1 = times
          · -- checkpoint exactly at end of file
            have ht1 : times - count = 1 := by omega
            rw [batch_evs, if_neg (fun h => hrem h.2), ht1, one_mul, htk, hdr,
              blocks_nil]
            conv_lhs => rw [dgLoop]
            simp only [hbr, hlen, if_true, hck, eq_self_iff_true,
              List.headD_cons, List.tail_cons,
              recv_write_echo srv slen hm]
            rw [if_neg (fun h => hge h.2)]
            have hpay : (pb ++ rem).take (pb.length + rem.length)
                = pb ++ rem := by
              rw [← List.length_append, List.take_length]
            rw [hpay]
            rw [batch_sizes, if_neg (fun h => hrem h.2), ht1, one_mul, hbr,
              hdr, blocks_nil]
            simp
          · -- end of file inside a batch: the final partial flush
            have h1le : 1 ≤ times - count := by omega
            have hmul : 1 * chunk ≤ (times - count) * chunk :=
              Nat.mul_le_mul h1le (le_refl chunk)
            have htc : rem.length ≤ (times - count) * chunk := by
              rw [one_mul] at hmul
              omega
            have htk2 : rem.take ((times - count) * chunk) = rem :=
              List.take_of_length_le htc
            have hdr2 : rem.drop ((times - count) * chunk) = [] :=
              List.drop_eq_nil_of_le htc
            rw [batch_evs, if_neg (fun h => hrem h.2), htk2, hdr2, blocks_nil]
            conv_lhs => rw [dgLoop]
            simp only [hbr, hlen, if_true, List.headD_cons, List.tail_cons,
              recv_write_echo srv slen hm]
            rw [if_neg hck, if_neg (fun h => hge h.2),
              if_neg (Nat.succ_ne_zero count)]
            have hpay : (pb ++ rem).take (pb.length + rem.length)
                = pb ++ rem := by
              rw [← List.length_append, List.take_length]
            rw [hpay]
            rw [batch_sizes, if_neg (fun h => hrem h.2), Nat.min_eq_right htc,
              hdr2, blocks_nil]
            simp

lemma read_write_single (b : List Nat) :
    read_write [b] b.length = .wrote b := by
  cases b with
  | nil => rfl
  | cons x xs =>
      have h1 : (x :: xs).take (xs.length + 1) = x :: xs := by
        rw [show xs.length + 1 = (x :: xs).length from rfl, List.take_length]
      unfold read_write
      simp [rwLoop, h1, List.length_cons, Nat.sub_self, List.nil_append]

lemma echoWrites_nil (chunk : Nat) : echoWrites chunk [] = [] := by
  simp [echoWrites, blocks_nil]

lemma echoWrites_cons (chunk : Nat) (rem : List Nat) (hc : 0 < chunk)
    (hrem : rem ≠ []) :
    echoWrites chunk rem
      = ((min chunk rem.length : Nat) : Int)
          :: echoWrites chunk (rem.drop chunk) := by
  unfold echoWrites
  rw [blocks_cons chunk rem hc hrem]
  simp [List.length_take]

lemma stLoop_echo_nil (chunk times : Nat)
    (hc : 0 < chunk) (ht : 0 < times)
    (fuel count : Nat) (pb : List Nat) (ws : List Int)
    (hcnt : count < times) (hpb : pb.length = count * chunk) :
    stLoop chunk times (fuel + 1) [] ws
        (batch_rds chunk times count pb []) count pb.length
      = .ok (pb ++ [], batch_sizes chunk times count pb []) := by
  by_cases h0 : count = 0
  · subst h0
    have hpb0 : pb = [] := by
      rw [Nat.zero_mul] at hpb
      exact List.length_eq_zero.mp hpb
    subst hpb0
    have h0t : ¬ ((0 : Nat) = times) :=
      fun h => absurd h.symm (Nat.pos_iff_ne_zero.mp ht)
    simp [stLoop, batch_rds, batch_sizes, h0t, hc.ne', Nat.le_zero]
  · have hne : ¬ (count = 0 ∧ ([] : List Nat) = []) := fun h => h0 h.1
    have hcknot : ¬ (count = times) := Nat.ne_of_lt hcnt
    have hcond : ¬ (0 < chunk ∧ chunk ≤ 0) := by
      omega
    have hsingle : read_write [pb] pb.length = .wrote pb :=
      read_write_single pb
    rw [batch_rds, if_neg hne]
    conv_lhs => rw [stLoop]
    simp only [List.length_nil, Nat.min_zero, lt_self_iff_false, if_false,
      false_and, List.headD_cons, List.tail_cons, List.take_nil,
      List.append_nil, hsingle]
    rw [if_neg hcknot, if_neg hcond, if_neg h0]
    rw [batch_sizes, if_neg hne]
    simp [blocks_nil]

lemma stLoop_echo (chunk times : Nat)
    (hc : 0 < chunk) (ht : 0 < times) :
    ∀ (fuel : Nat) (rem : List Nat) (count : Nat) (pb : List Nat),
      rem.length < fuel → count < times → pb.length = count * chunk →
      stLoop chunk times fuel rem (echoWrites chunk rem)
          (batch_rds chunk times count pb rem) count pb.length
        = .ok (pb ++ rem, batch_sizes chunk times count pb rem) := by
  intro fuel
  induction fuel with
  | zero =>
      intro rem count pb hn
      exact absurd hn (Nat.not_lt_zero _)
  | succ fuel ih =>
      intro rem count pb hn hcnt hpb
      by_cases hrem : rem = []
      · subst hrem
        rw [echoWrites_nil]
        exact stLoop_echo_nil chunk times hc ht fuel count pb [] hcnt hpb
      · have hlen : 0 < rem.length := List.length_pos.mpr hrem
        rw [echoWrites_cons chunk rem hc hrem]
        by_cases hge : chunk ≤ rem.length
        · have hbr : min chunk rem.length = chunk := Nat.min_eq_left hge
          by_cases hck : count + 1 = times
          · -- checkpoint reached with a full chunk; the loop continues
            have ht1 : times - count = 1 := by omega
            have hfuel : (rem.drop chunk).length < fuel := by
              rw [List.length_drop]
              omega
            have hrec := ih (rem.drop chunk) 0 [] hfuel ht (by simp)
            rw [batch_rds_zero chunk times hc ht,
              batch_sizes_zero chunk times hc ht] at hrec
            simp only [List.length_nil, List.nil_append] at hrec
            rw [batch_rds, if_neg (fun h => hrem h.2), ht1, one_mul]
            have hrw1 : read_write [pb ++ rem.take chunk]
                (pb.length + chunk) = .wrote (pb ++ rem.take chunk) := by
              have hpl : (pb ++ rem.take chunk).length
                  = pb.length + chunk := by
                rw [List.length_append, List.length_take, hbr]
              rw [← hpl]
              exact read_write_single _
            conv_lhs => rw [stLoop]
            simp only [hbr, hc, if_true, hck, eq_self_iff_true,
              List.headD_cons, List.tail_cons, hrw1]
            rw [if_neg (by simp), if_pos ⟨trivial, hge⟩]
            simp only [hrec]
            rw [batch_sizes, if_neg (fun h => hrem h.2), ht1, one_mul, hbr]
            rw [List.append_assoc, List.take_append_drop]
          · -- a full chunk strictly inside the current batch
            have h2 : count + 1 < times := by omega
            have hfuel : (rem.drop chunk).length < fuel := by
              rw [List.length_drop]
              omega
            have hpb' : (pb ++ rem.take chunk).length
                = (count + 1) * chunk := by
              rw [List.length_append, List.length_take, hbr, hpb,
                Nat.succ_mul]
            have hrec := ih (rem.drop chunk) (count + 1)
              (pb ++ rem.take chunk) hfuel h2 hpb'
            conv_lhs => rw [stLoop]
            simp only [hbr, hc, if_true, eq_self_iff_true,
              List.headD_cons, List.tail_cons]
            rw [if_neg (by simp), if_neg hck,
              if_pos ⟨trivial, hge⟩]
            rw [batch_rds_shift chunk times count pb rem hc hge h2]
            have hbytes : pb.length + chunk
                = (pb ++ rem.take chunk).length := by
              rw [List.length_append, List.length_take, hbr]
            rw [hbytes, hrec]
            rw [batch_sizes_shift chunk times count pb rem hc hge h2]
            rw [List.append_assoc, List.take_append_drop]
        · -- the final, shorter-than-chunk read
          have hlt : rem.length < chunk := Nat.lt_of_not_le hge
          have hbr : min chunk rem.length = rem.length :=
            Nat.min_eq_right (Nat.le_of_lt hlt)
          have htk : rem.take chunk = rem :=
            List.take_of_length_le (Nat.le_of_lt hlt)
          have hdr : rem.drop chunk = [] :=
            List.drop_eq_nil_of_le (Nat.le_of_lt hlt)
          have hrw1 : read_write [pb ++ rem]
              (pb.length + rem.length) = .wrote (pb ++ rem) := by
            rw [← List.length_append]
            exact read_write_single _
          by_cases hck : count + 1 = times
          · -- checkpoint exactly at end of file
            have ht1 : times - count = 1 := by omega
            rw [batch_rds, if_neg (fun h => hrem h.2), ht1, one_mul, htk,
              hdr]
            conv_lhs => rw [stLoop]
            simp only [hbr, hlen, if_true, hck, eq_self_iff_true,
              List.headD_cons, List.tail_cons, hrw1]
            rw [if_neg (by simp), if_neg (fun h => hge h.2)]
            rw [batch_sizes, if_neg (fun h => hrem h.2), ht1, one_mul, hbr,
              hdr, blocks_nil]
            simp
          · -- end of file inside a batch: the final partial flush
            have h1le : 1 ≤ times - count := by omega
            have hmul : 1 * chunk ≤ (times - count) * chunk :=
              Nat.mul_le_mul h1le (le_refl chunk)
            have htc : rem.length ≤ (times - count) * chunk := by
              rw [one_mul] at hmul
              omega
            have htk2 : rem.take ((times - count) * chunk) = rem :=
              List.take_of_length_le htc
            have hdr2 : rem.drop ((times - count) * chunk) = [] :=
              List.drop_eq_nil_of_le htc
            rw [batch_rds, if_neg (fun h => hrem h.2), htk2, hdr2]
            conv_lhs => rw [stLoop]
            simp only [hbr, hlen, if_true, List.headD_cons, List.tail_cons,
              hrw1]
            rw [if_neg (by simp), if_neg hck,
              if_neg (fun h => hge h.2), if_neg (Nat.succ_ne_zero count)]
            rw [batch_sizes, if_neg (fun h => hrem h.2),
              Nat.min_eq_right htc, hdr2, blocks_nil]
            simp

/-- C1: round trip under no loss. For every source file, positive chunk
size and positive checkpoint interval, when every checkpoint receive
succeeds - each datagram checkpoint is answered by the expected peer
echoing exactly the bytes sent since the last checkpoint, and each
stream checkpoint by reads delivering exactly those bytes with every
write accepted in full - both transfer engines complete and the mirror
file contents equal the source file, byte for byte. -/
theorem c1_round_trip (srv : SockAddr) (slen : Nat) (file : List Nat)
    (chunk times : Nat) (hc : 0 < chunk) (ht : 0 < times)
    (hm : address_match srv slen srv slen = .ok true) :
    datagram_process_file srv slen file chunk times
        (echoEvs srv slen (blocks (times * chunk) file))
      = .ok (file, (blocks (times * chunk) file).map List.length)
    ∧ stream_process_file file chunk times (echoWrites chunk file)
        (echoReads times chunk file)
      = .ok (file, (blocks (times * chunk) file).map List.length) := by
  constructor
  · have h := dgLoop_echo srv slen chunk times hc ht hm (file.length + 1)
      file 0 [] (Nat.lt_succ_self _) ht (by simp)
    rw [batch_evs_zero srv slen chunk times hc ht,
      batch_sizes_zero chunk times hc ht] at h
    simpa [datagram_process_file] using h
  · have h := stLoop_echo chunk times hc ht (file.length + 1)
      file 0 [] (Nat.lt_succ_self _) ht (by simp)
    rw [batch_rds_zero chunk times hc ht,
      batch_sizes_zero chunk times hc ht] at h
    simpa [stream_process_file] using h

/-- Witness for C1: a 3-byte file, chunk size 1, checkpoint interval 2. -/
theorem c1_round_trip_witness :
    datagram_process_file (.inet [1, 2]) 2 [1, 2, 3] 1 2
        (echoEvs (.inet [1, 2]) 2 (blocks (2 * 1) [1, 2, 3]))
      = .ok ([1, 2, 3], (blocks (2 * 1) [1, 2, 3]).map List.length)
    ∧ stream_process_file [1, 2, 3] 1 2 (echoWrites 1 [1, 2, 3])
        (echoReads 2 1 [1, 2, 3])
      = .ok ([1, 2, 3], (blocks (2 * 1) [1, 2, 3]).map List.length) :=
  c1_round_trip (.inet [1, 2]) 2 [1, 2, 3] 1 2 (by decide) (by decide)
    (by decide)

lemma blocks_map_length (sz : Nat) (hsz : 0 < sz) :
    ∀ (n : Nat) (l : List Nat), l.length ≤ n → l.length % sz ≠ 0 →
      (blocks sz l).map List.length
        = List.replicate (l.length / sz) sz ++ [l.length % sz] := by
  intro n
  induction n with
  | zero =>
      intro l hn hmod
      have hl : l = [] := by
        cases l with
        | nil => rfl
        | cons a t => simp at hn
      subst hl
      simp at hmod
  | succ n ih =>
      intro l hn hmod
      have hl : l ≠ [] := by
        intro h
        subst h
        simp at hmod
      rw [blocks_cons sz l hsz hl]
      by_cases hge : sz ≤ l.length
      · have hlen : (l.drop sz).length = l.length - sz :=
          List.length_drop _ _
        have hmodswap : l.length % sz = (l.length - sz) % sz := by
          conv_lhs => rw [Nat.mod_eq]
          rw [if_pos ⟨hsz, hge⟩]
        have hdiv : l.length / sz = (l.length - sz) / sz + 1 := by
          conv_lhs => rw [Nat.div_eq]
          rw [if_pos ⟨hsz, hge⟩]
        have hrec := ih (l.drop sz) (by rw [hlen]; omega)
          (by rw [hlen, ← hmodswap]; exact hmod)
        simp only [List.map_cons, hrec, hlen, List.length_take,
          Nat.min_eq_left hge]
        rw [hdiv, hmodswap, List.replicate_succ]
        simp
      · have hlt : l.length < sz := Nat.lt_of_not_le hge
        have hdr : l.drop sz = [] :=
          List.drop_eq_nil_of_le (Nat.le_of_lt hlt)
        rw [hdr, blocks_nil]
        simp [List.length_take, Nat.min_eq_right (Nat.le_of_lt hlt),
          Nat.div_eq_of_lt hlt, Nat.mod_eq_of_lt hlt]

/-- C5: the partial final batch is flushed. For a source file whose
positive byte length is not a multiple of chunk size times checkpoint
interval, both engines perform the receives of the full checkpoints and
then exactly one additional receive, sized to the remaining unflushed
bytes (the engine's second result component lists the byte totals of the
receive calls in order, and each of those calls is preceded by exactly
one invocation of the optional pre-receive hook in the source). In
particular a 10-byte file with chunk size 4 and interval 100 produces
exactly one receive of 10 bytes. -/
theorem c5_partial_final_batch (srv : SockAddr) (slen : Nat)
    (file : List Nat) (chunk times : Nat) (hc : 0 < chunk) (ht : 0 < times)
    (hm : address_match srv slen srv slen = .ok true)
    (hpos : 0 < file.length)
    (hmod : file.length % (times * chunk) ≠ 0) :
    datagram_process_file srv slen file chunk times
        (echoEvs srv slen (blocks (times * chunk) file))
      = .ok (file,
          List.replicate (file.length / (times * chunk)) (times * chunk)
            ++ [file.length % (times * chunk)])
    ∧ stream_process_file file chunk times (echoWrites chunk file)
        (echoReads times chunk file)
      = .ok (file,
          List.replicate (file.length / (times * chunk)) (times * chunk)
            ++ [file.length % (times * chunk)]) := by
  have hB : 0 < times * chunk := Nat.mul_pos ht hc
  have hlens := blocks_map_length (times * chunk) hB file.length file
    le_rfl hmod
  constructor
  · have h := dgLoop_echo srv slen chunk times hc ht hm (file.length + 1)
      file 0 [] (Nat.lt_succ_self _) ht (by simp)
    rw [batch_evs_zero srv slen chunk times hc ht,
      batch_sizes_zero chunk times hc ht, hlens] at h
    simpa [datagram_process_file] using h
  · have h := stLoop_echo chunk times hc ht (file.length + 1)
      file 0 [] (Nat.lt_succ_self _) ht (by simp)
    rw [batch_rds_zero chunk times hc ht,
      batch_sizes_zero chunk times hc ht, hlens] at h
    simpa [stream_process_file] using h

/-- Witness for C5: the spec's own example, a 10-byte file with chunk
size 4 and checkpoint interval 100: exactly one receive of 10 bytes. -/
theorem c5_partial_final_batch_witness :
    datagram_process_file (.inet [1, 2]) 2 [0, 1, 2, 3, 4, 5, 6, 7, 8, 9]
        4 100
        (echoEvs (.inet [1, 2]) 2
          (blocks (100 * 4) [0, 1, 2, 3, 4, 5, 6, 7, 8, 9]))
      = .ok ([0, 1, 2, 3, 4, 5, 6, 7, 8, 9],
          List.replicate
              ([0, 1, 2, 3, 4, 5, 6, 7, 8, 9].length / (100 * 4)) (100 * 4)
            ++ [[0, 1, 2, 3, 4, 5, 6, 7, 8, 9].length % (100 * 4)])
    ∧ stream_process_file [0, 1, 2, 3, 4, 5, 6, 7, 8, 9] 4 100
        (echoWrites 4 [0, 1, 2, 3, 4, 5, 6, 7, 8, 9])
        (echoReads 100 4 [0, 1, 2, 3, 4, 5, 6, 7, 8, 9])
      = .ok ([0, 1, 2, 3, 4, 5, 6, 7, 8, 9],
          List.replicate
              ([0, 1, 2, 3, 4, 5, 6, 7, 8, 9].length / (100 * 4)) (100 * 4)
            ++ [[0, 1, 2, 3, 4, 5, 6, 7, 8, 9].length % (100 * 4)]) :=
  c5_partial_final_batch (.inet [1, 2]) 2 [0, 1, 2, 3, 4, 5, 6, 7, 8, 9]
    4 100 (by decide) (by decide) (by decide) (by decide) (by decide)

end NetEcho
